import Mathlib

/-!
Verification of the calendar combiner core (`src/packages/calendar/combine/index.js`,
function `combineCalendars`) against its natural-language specification.

The engine operates on the iCal component tree of the `ical.js` library
(jCal shape: a component is a name, an ordered property list and an ordered
subcomponent list; a property is a name and a typed value).  The library is an
external collaborator (spec §4.1, §9); its data model is embedded following the
spec's §3 data model: a date-time value carries an optional attached timezone
("date-time with or without an attached timezone identifier"), the timezone-id
parameter being folded into the value's zone field.
-/

namespace CalendarCombiner

/-- Timezone attached to a date-time value: UTC or a named tzid. -/
inductive Zone where
  | utc
  | named (tzid : String)
deriving DecidableEq, Repr

/-- A date-time value: opaque textual date part plus an optional attached zone
(`none` = floating local time, spec §3). -/
structure ICalTime where
  date : String
  zone : Option Zone
deriving DecidableEq, Repr

/-- A property value: a date-time, or opaque text (durations, rule strings,
free text and anything else the engine never inspects). -/
inductive Value where
  | time (t : ICalTime)
  | text (s : String)
deriving DecidableEq, Repr

/-- A property: canonical lowercase name and a value. -/
structure Property where
  name : String
  value : Value
deriving DecidableEq, Repr

/-- A component: a type tag, an ordered property list, and an ordered list of
nested components (jCal `[name, properties, components]`). -/
inductive Component where
  | mk (name : String) (props : List Property) (comps : List Component)

/-- Type tag of a component. -/
def Component.name : Component → String
  | Component.mk n _ _ => n

/-- Ordered property list of a component. -/
def Component.props : Component → List Property
  | Component.mk _ ps _ => ps

/-- Ordered nested components of a component. -/
def Component.comps : Component → List Component
  | Component.mk _ _ cs => cs

/-- ical.js `Component.getFirstProperty(name)`: first property with the given
name, or null. -/
def getFirstProperty (c : Component) (n : String) : Option Property :=
  c.props.find? (fun p => p.name == n)

/-- ical.js `Component.getFirstPropertyValue(name)`. -/
def getFirstPropertyValue (c : Component) (n : String) : Option Value :=
  (getFirstProperty c n).map Property.value

/-- ical.js `Component.addProperty(p)`: appends the property to the
component's property list. -/
def addProperty (c : Component) (p : Property) : Component :=
  Component.mk c.name (c.props ++ [p]) c.comps

/-- ical.js `Component.addSubcomponent(sub)`: appends a nested component. -/
def addSubcomponent (c : Component) (sub : Component) : Component :=
  Component.mk c.name c.props (c.comps ++ [sub])

/-- ical.js `Component.getAllSubcomponents(name)`: the subcomponents of this
component whose type tag matches the given name (direct children only). -/
def getAllSubcomponents (c : Component) (n : String) : List Component :=
  c.comps.filter (fun sub => sub.name == n)

/-- Rewrite the value of the first property with the given name; the rest of
the list is untouched. -/
def updateFirstProp : List Property → String → (Value → Value) → List Property
  | [], _, _ => []
  | p :: rest, n, f =>
    if p.name == n then Property.mk p.name (f p.value) :: rest
    else p :: updateFirstProp rest n f

/-- ical.js `Component.updatePropertyWithValue(name, value)`: set the value of
the first property with that name if one exists, otherwise add a new
property with that name and value. -/
def updatePropertyWithValue (c : Component) (n : String) (v : Value) : Component :=
  match getFirstProperty c n with
  | some _ => Component.mk c.name (updateFirstProp c.props n (fun _ => v)) c.comps
  | none => addProperty c (Property.mk n v)

/-- index.js line 101: `["dtstart", "dtend", "duration", "rrule", "uid"]`. -/
def essentialProps : List String := ["dtstart", "dtend", "duration", "rrule", "uid"]

/-- index.js lines 96-113: build a new empty vevent, copy the first matching
property for each essential name, then set summary to "BUSY". -/
def obfuscateEvent (event : Component) : Component :=
  let obfuscated := Component.mk "vevent" [] []
  let copied := essentialProps.foldl
    (fun acc propName =>
      match getFirstProperty event propName with
      | some p => addProperty acc p
      | none => acc) obfuscated
  updatePropertyWithValue copied "summary" (Value.text "BUSY")

/-- Attach the UTC zone to a floating date-time; every other value is left
unchanged (a zoned date-time is not re-zoned; index.js assigns `.zone` on the
returned value object, which for a non-date-time value is a no-op). -/
def attachUtcIfFloating : Value → Value
  | Value.time (ICalTime.mk d none) => Value.time (ICalTime.mk d (some Zone.utc))
  | v => v

/-- index.js lines 116-119: read the first dtstart value; if it is present and
has no zone, set its zone to UTC in place (write-through to the tree). -/
def normalizeDtstart (event : Component) : Component :=
  match getFirstPropertyValue event "dtstart" with
  | some (Value.time t) =>
    if t.zone = none then
      Component.mk event.name (updateFirstProp event.props "dtstart" attachUtcIfFloating)
        event.comps
    else event
  | _ => event

/-- index.js lines 95-120, the per-event body of the inner forEach: redact
when obfuscate is set, then normalize the dtstart zone. -/
def processEvent (obfuscate : Bool) (event : Component) : Component :=
  let event := if obfuscate then obfuscateEvent event else event
  normalizeDtstart event

/-- index.js lines 83-128, `combineCalendars`: start from a bare vcalendar,
and for each source in order append each of its direct vevent subcomponents,
processed per event.  Sources are modelled as parsed component trees (the
`ical.parse` step is the Parser collaborator of spec §4.1). -/
def combineCalendars (calendars : List Component) (obfuscate : Bool) : Component :=
  calendars.foldl
    (fun combined calendar =>
      (getAllSubcomponents calendar "vevent").foldl
        (fun acc event => addSubcomponent acc (processEvent obfuscate event)) combined)
    (Component.mk "vcalendar" [] [])

/-- index.js line 195: `main` rejects fewer than two calendar URLs
(`urls.length < 2` throws). -/
def requiresAtLeastTwoSources (urls : List String) : Bool :=
  urls.length < 2

mutual

/-- Number of vevent components contained in a tree at any depth, the
component itself included: the recursive extraction measure the spec's §4.2
step 2 asks for ("direct or nested - engine must search recursively"). -/
def countVEventsRec : Component → Nat
  | Component.mk n _ cs => (if n = "vevent" then 1 else 0) + countVEventsRecList cs

/-- Sum of `countVEventsRec` over a list of components. -/
def countVEventsRecList : List Component → Nat
  | [] => 0
  | c :: cs => countVEventsRec c + countVEventsRecList cs

end

/-- Source document for the nested-event counterexample: one vevent nested
under an intermediate grouping component, so not a direct child of the
top-level vcalendar. -/
def nestedEventDoc : Component :=
  Component.mk "vcalendar" []
    [Component.mk "x-group" []
      [Component.mk "vevent" [Property.mk "summary" (Value.text "Hidden")] []]]

/-! ### Object-identity model for the redaction copy step

Modelled from the spec: the Property objects of the iCal library are shared
mutable objects, and the redaction loop of index.js lines 102-107 copies a
property reference into the new event (spec §9: "Mutable shared property
objects in the original design (copying a property reference into a new
event) must become explicit value copies in a reimplementation to avoid
accidental aliasing between source and combined trees").  The library's
property-object semantics are not part of src/, so this model follows the
spec's description: a heap maps a property object id to its current value, a
component's property slot holds the object's name and heap id, and a mutation
through one tree is visible through every tree holding the same reference. -/

/-- A property reference: the property's name plus the heap id of the shared
mutable property object holding its value. -/
structure PropObj where
  name : String
  pid : Nat
deriving DecidableEq, Repr

/-- The heap of mutable property objects. -/
def Heap : Type := Nat → Value

/-- Mutating one property object in place. -/
def heapUpdate (h : Heap) (i : Nat) (v : Value) : Heap :=
  fun j => if j = i then v else h j

/-- Reference-level `getFirstProperty`. -/
def heapGetFirstProperty (props : List PropObj) (n : String) : Option PropObj :=
  props.find? (fun p => p.name == n)

/-- Reference-level redaction (index.js lines 98-110): copy the first
matching property reference for each essential name into the new event's
property list, then add a freshly constructed summary object. -/
def heapObfuscateProps (src : List PropObj) (fresh : Nat) : List PropObj :=
  (essentialProps.foldl
    (fun acc propName =>
      match heapGetFirstProperty src propName with
      | some p => acc ++ [p]
      | none => acc) [])
    ++ [PropObj.mk "summary" fresh]

/-- Reading a property list through the heap gives the value-level view. -/
def heapRender (h : Heap) (props : List PropObj) : List Property :=
  props.map (fun p => Property.mk p.name (h p.pid))

/-- Source event for the aliasing counterexample: a dtstart (shared object
id 0) and a location (object id 1). -/
def srcEventProps : List PropObj := [PropObj.mk "dtstart" 0, PropObj.mk "location" 1]

/-- The heap right after the merge: ids 0 and 1 hold the source's values and
id 2 holds the freshly created BUSY summary. -/
def mergedHeap : Heap :=
  heapUpdate
    (heapUpdate
      (heapUpdate (fun _ => Value.text "") 0
        (Value.time (ICalTime.mk "20240101T100000" (some Zone.utc))))
      1 (Value.text "Clinic"))
    2 (Value.text "BUSY")

/-- The redacted event's property references (fresh summary id 2). -/
def obfEventProps : List PropObj := heapObfuscateProps srcEventProps 2

/-- Mutating the source event's dtstart property object after the merge. -/
def mutatedHeap : Heap :=
  heapUpdate mergedHeap 0 (Value.time (ICalTime.mk "19990101T000000" (some Zone.utc)))

/-! ### Basic structural lemmas -/

@[simp]
lemma Component.name_mk (n : String) (ps : List Property) (cs : List Component) :
    (Component.mk n ps cs).name = n := rfl

@[simp]
lemma Component.props_mk (n : String) (ps : List Property) (cs : List Component) :
    (Component.mk n ps cs).props = ps := rfl

@[simp]
lemma Component.comps_mk (n : String) (ps : List Property) (cs : List Component) :
    (Component.mk n ps cs).comps = cs := rfl

lemma Component.eta (c : Component) : Component.mk c.name c.props c.comps = c := by
  cases c
  rfl

lemma getFirstProperty_eq (c : Component) (n : String) :
    getFirstProperty c n = c.props.find? (fun p => p.name == n) := rfl

lemma getFirstProperty_name {c : Component} {n : String} {p : Property}
    (h : getFirstProperty c n = some p) : p.name = n := by
  have hb := List.find?_some h
  exact eq_of_beq hb

lemma find?_filterMap_of_none (e : Component) (L : List String) (n : String)
    (h : getFirstProperty e n = none) :
    (L.filterMap (getFirstProperty e)).find? (fun q => q.name == n) = none := by
  induction L with
  | nil => rfl
  | cons k rest ih =>
    simp only [List.filterMap_cons]
    cases hk : getFirstProperty e k with
    | none => exact ih
    | some p =>
      have hpk : p.name = k := getFirstProperty_name hk
      have hkn : k ≠ n := by
        rintro rfl
        rw [hk] at h
        cases h
      rw [List.find?_cons_of_neg _ (by simp [hpk, hkn])]
      exact ih

lemma find?_filterMap_of_not_mem (e : Component) (L : List String) (n : String)
    (h : n ∉ L) :
    (L.filterMap (getFirstProperty e)).find? (fun q => q.name == n) = none := by
  induction L with
  | nil => rfl
  | cons k rest ih =>
    have hkn : k ≠ n := fun hkn => h (hkn ▸ List.mem_cons_self k rest)
    have hrest : n ∉ rest := fun hr => h (List.mem_cons_of_mem _ hr)
    simp only [List.filterMap_cons]
    cases hk : getFirstProperty e k with
    | none => exact ih hrest
    | some p =>
      have hpk : p.name = k := getFirstProperty_name hk
      rw [List.find?_cons_of_neg _ (by simp [hpk, hkn])]
      exact ih hrest

lemma find?_filterMap_of_mem (e : Component) (L : List String) (n : String)
    (hmem : n ∈ L) :
    (L.filterMap (getFirstProperty e)).find? (fun q => q.name == n)
      = getFirstProperty e n := by
  induction L with
  | nil => cases hmem
  | cons k rest ih =>
    simp only [List.filterMap_cons]
    by_cases hk : k = n
    · subst hk
      cases h : getFirstProperty e k with
      | none => rw [find?_filterMap_of_none e rest k h]
      | some p =>
        have hpk : p.name = k := getFirstProperty_name h
        rw [List.find?_cons_of_pos _ (by simp [hpk])]
    · rcases List.mem_cons.mp hmem with rfl | hmem'
      · exact absurd rfl hk
      · cases h : getFirstProperty e k with
        | none => exact ih hmem'
        | some p =>
          have hpk : p.name = k := getFirstProperty_name h
          rw [List.find?_cons_of_neg _ (by simp [hpk, hk])]
          exact ih hmem'

/-! ### The essential-property copy loop (index.js lines 101-107) -/

lemma copyEssentials_props (event : Component) (L : List String) (acc : Component) :
    (L.foldl
        (fun acc propName =>
          match getFirstProperty event propName with
          | some p => addProperty acc p
          | none => acc) acc).props
      = acc.props ++ L.filterMap (getFirstProperty event) := by
  induction L generalizing acc with
  | nil => simp
  | cons k rest ih =>
    simp only [List.foldl_cons, List.filterMap_cons]
    cases h : getFirstProperty event k with
    | none => simp only [h, ih]
    | some p =>
      simp only [h]
      rw [ih (addProperty acc p)]
      simp [addProperty]

lemma copyEssentials_name (event : Component) (L : List String) (acc : Component) :
    (L.foldl
        (fun acc propName =>
          match getFirstProperty event propName with
          | some p => addProperty acc p
          | none => acc) acc).name = acc.name := by
  induction L generalizing acc with
  | nil => rfl
  | cons k rest ih =>
    simp only [List.foldl_cons]
    cases h : getFirstProperty event k with
    | none => simp only [h, ih]
    | some p =>
      simp only [h]
      rw [ih (addProperty acc p)]
      rfl

lemma copyEssentials_comps (event : Component) (L : List String) (acc : Component) :
    (L.foldl
        (fun acc propName =>
          match getFirstProperty event propName with
          | some p => addProperty acc p
          | none => acc) acc).comps = acc.comps := by
  induction L generalizing acc with
  | nil => rfl
  | cons k rest ih =>
    simp only [List.foldl_cons]
    cases h : getFirstProperty event k with
    | none => simp only [h, ih]
    | some p =>
      simp only [h]
      rw [ih (addProperty acc p)]
      rfl

lemma updatePropertyWithValue_of_absent (c : Component) (n : String) (v : Value)
    (h : getFirstProperty c n = none) :
    updatePropertyWithValue c n v
      = Component.mk c.name (c.props ++ [Property.mk n v]) c.comps := by
  unfold updatePropertyWithValue
  rw [h]
  rfl

/-- The redacted event, explicitly: the essential properties found in the
source, in the fixed order, followed by the BUSY summary; nothing else. -/
lemma obfuscateEvent_eq (e : Component) :
    obfuscateEvent e
      = Component.mk "vevent"
          (essentialProps.filterMap (getFirstProperty e)
            ++ [Property.mk "summary" (Value.text "BUSY")])
          [] := by
  unfold obfuscateEvent
  have hp := copyEssentials_props e essentialProps (Component.mk "vevent" [] [])
  have hn := copyEssentials_name e essentialProps (Component.mk "vevent" [] [])
  have hc := copyEssentials_comps e essentialProps (Component.mk "vevent" [] [])
  simp only [Component.props_mk, Component.name_mk, Component.comps_mk,
    List.nil_append] at hp hn hc
  have hfind : getFirstProperty
      (essentialProps.foldl
        (fun acc propName =>
          match getFirstProperty e propName with
          | some p => addProperty acc p
          | none => acc) (Component.mk "vevent" [] [])) "summary" = none := by
    rw [getFirstProperty_eq, hp]
    exact find?_filterMap_of_not_mem e essentialProps "summary" (by decide)
  rw [updatePropertyWithValue_of_absent _ _ _ hfind, hp, hn, hc]

/-- Property lookup in a redacted event, by cases on the name. -/
lemma getFirstProperty_obfuscateEvent (e : Component) (n : String) :
    getFirstProperty (obfuscateEvent e) n
      = if n = "summary" then some (Property.mk "summary" (Value.text "BUSY"))
        else if n ∈ essentialProps then getFirstProperty e n
        else none := by
  rw [obfuscateEvent_eq, getFirstProperty_eq]
  simp only [Component.props_mk, List.find?_append]
  by_cases hs : n = "summary"
  · subst hs
    rw [find?_filterMap_of_not_mem e _ _ (by decide)]
    simp
  · by_cases hmem : n ∈ essentialProps
    · rw [find?_filterMap_of_mem e _ _ hmem]
      cases h : getFirstProperty e n with
      | none => simp [hs, hmem, Ne.symm hs]
      | some p => simp [hs, hmem]
    · rw [find?_filterMap_of_not_mem e _ _ hmem]
      simp [hs, hmem, Ne.symm hs]

/-! ### dtstart timezone normalization (index.js lines 116-119) -/

lemma attachUtcIfFloating_of_zoned {t : ICalTime} (h : t.zone ≠ none) :
    attachUtcIfFloating (Value.time t) = Value.time t := by
  obtain ⟨d, z⟩ := t
  cases z with
  | none => exact absurd rfl h
  | some z => rfl

lemma attachUtcIfFloating_idem (v : Value) :
    attachUtcIfFloating (attachUtcIfFloating v) = attachUtcIfFloating v := by
  cases v with
  | text s => rfl
  | time t =>
    obtain ⟨d, z⟩ := t
    cases z <;> rfl

lemma updateFirstProp_map_name (ps : List Property) (n : String) (f : Value → Value) :
    (updateFirstProp ps n f).map Property.name = ps.map Property.name := by
  induction ps with
  | nil => rfl
  | cons p rest ih =>
    by_cases h : p.name = n
    · simp [updateFirstProp, h]
    · simp [updateFirstProp, h, ih]

lemma find?_updateFirstProp_ne (ps : List Property) (m : String) (f : Value → Value)
    (n : String) (hnm : n ≠ m) :
    (updateFirstProp ps m f).find? (fun q => q.name == n)
      = ps.find? (fun q => q.name == n) := by
  induction ps with
  | nil => rfl
  | cons p rest ih =>
    by_cases h : p.name = m
    · have hpn : p.name ≠ n := by rw [h]; exact Ne.symm hnm
      simp [updateFirstProp, h, hpn, Ne.symm hnm]
    · by_cases h2 : p.name = n
      · simp [updateFirstProp, h, h2, hnm]
      · simp [updateFirstProp, h, h2, ih]

lemma find?_updateFirstProp_self (ps : List Property) (m : String) (f : Value → Value) :
    (updateFirstProp ps m f).find? (fun q => q.name == m)
      = (ps.find? (fun q => q.name == m)).map
          (fun p => Property.mk p.name (f p.value)) := by
  induction ps with
  | nil => rfl
  | cons p rest ih =>
    by_cases h : p.name = m
    · simp [updateFirstProp, h]
    · simp [updateFirstProp, h, ih]

lemma updateFirstProp_of_find?_none (ps : List Property) (m : String) (f : Value → Value)
    (h : ps.find? (fun q => q.name == m) = none) :
    updateFirstProp ps m f = ps := by
  induction ps with
  | nil => rfl
  | cons p rest ih =>
    have hall := List.find?_eq_none.mp h
    have hpm : ¬p.name = m := by
      have := hall p (List.mem_cons_self p rest)
      simpa using this
    have hrest : rest.find? (fun q => q.name == m) = none :=
      List.find?_eq_none.mpr (fun x hx => hall x (List.mem_cons_of_mem _ hx))
    simp [updateFirstProp, hpm, ih hrest]

lemma updateFirstProp_of_fix (ps : List Property) (m : String) (f : Value → Value)
    (h : ∀ p, ps.find? (fun q => q.name == m) = some p → f p.value = p.value) :
    updateFirstProp ps m f = ps := by
  induction ps with
  | nil => rfl
  | cons p rest ih =>
    by_cases hp : p.name = m
    · have hfind : (p :: rest).find? (fun q => q.name == m) = some p :=
        List.find?_cons_of_pos _ (by simp [hp])
      have hv := h p hfind
      show (if p.name == m then Property.mk p.name (f p.value) :: rest
        else p :: updateFirstProp rest m f) = p :: rest
      rw [if_pos (show (p.name == m) = true by simp [hp]), hv]
    · have hstep : (p :: rest).find? (fun q => q.name == m)
          = rest.find? (fun q => q.name == m) :=
        List.find?_cons_of_neg _ (by simp [hp])
      have hrest := fun p' hp' => h p' (by rw [hstep]; exact hp')
      simp [updateFirstProp, hp, ih hrest]

lemma updateFirstProp_idem (ps : List Property) (m : String) (f : Value → Value)
    (hf : ∀ v, f (f v) = f v) :
    updateFirstProp (updateFirstProp ps m f) m f = updateFirstProp ps m f := by
  induction ps with
  | nil => rfl
  | cons p rest ih =>
    by_cases hp : p.name = m
    · simp [updateFirstProp, hp, hf]
    · simp [updateFirstProp, hp, ih]

/-- The normalization step, explicitly: it rewrites the value of the first
dtstart property (if any) by `attachUtcIfFloating` and changes nothing else. -/
lemma normalizeDtstart_eq (e : Component) :
    normalizeDtstart e
      = Component.mk e.name (updateFirstProp e.props "dtstart" attachUtcIfFloating)
          e.comps := by
  unfold normalizeDtstart
  cases hv : getFirstPropertyValue e "dtstart" with
  | none =>
    have hfind : e.props.find? (fun q => q.name == "dtstart") = none := by
      rw [← getFirstProperty_eq]
      exact Option.map_eq_none'.mp hv
    rw [updateFirstProp_of_find?_none _ _ _ hfind]
    exact (Component.eta e).symm
  | some v =>
    obtain ⟨p, hp, hpv⟩ := Option.map_eq_some'.mp hv
    have hfix : ∀ t : ICalTime, t.zone ≠ none →
        p.value = Value.time t → updateFirstProp e.props "dtstart" attachUtcIfFloating
          = e.props := by
      intro t hz hval
      apply updateFirstProp_of_fix
      intro q hq
      have hq' : q = p := by
        rw [← getFirstProperty_eq] at hq
        rw [hq] at hp
        exact (Option.some.inj hp)
      rw [hq', hval]
      exact attachUtcIfFloating_of_zoned hz
    have hfixtext : ∀ s : String, p.value = Value.text s →
        updateFirstProp e.props "dtstart" attachUtcIfFloating = e.props := by
      intro s hval
      apply updateFirstProp_of_fix
      intro q hq
      have hq' : q = p := by
        rw [← getFirstProperty_eq] at hq
        rw [hq] at hp
        exact (Option.some.inj hp)
      rw [hq', hval]
      rfl
    cases v with
    | text s =>
      rw [hfixtext s hpv]
      exact (Component.eta e).symm
    | time t =>
      cases hz : t.zone with
      | none =>
        simp [hz]
      | some z =>
        rw [hfix t (by rw [hz]; exact Option.noConfusion) hpv]
        simp [hz]
        exact (Component.eta e).symm

lemma getFirstProperty_normalizeDtstart_ne (e : Component) (n : String)
    (h : n ≠ "dtstart") :
    getFirstProperty (normalizeDtstart e) n = getFirstProperty e n := by
  rw [normalizeDtstart_eq, getFirstProperty_eq, Component.props_mk,
    find?_updateFirstProp_ne _ _ _ _ h, ← getFirstProperty_eq]

lemma getFirstProperty_normalizeDtstart_dtstart (e : Component) :
    getFirstProperty (normalizeDtstart e) "dtstart"
      = (getFirstProperty e "dtstart").map
          (fun p => Property.mk p.name (attachUtcIfFloating p.value)) := by
  rw [normalizeDtstart_eq, getFirstProperty_eq, Component.props_mk,
    find?_updateFirstProp_self, ← getFirstProperty_eq]

lemma normalizeDtstart_name (e : Component) : (normalizeDtstart e).name = e.name := by
  rw [normalizeDtstart_eq]
  rfl

lemma normalizeDtstart_comps (e : Component) : (normalizeDtstart e).comps = e.comps := by
  rw [normalizeDtstart_eq]
  rfl

lemma normalizeDtstart_props_names (e : Component) :
    (normalizeDtstart e).props.map Property.name = e.props.map Property.name := by
  rw [normalizeDtstart_eq, Component.props_mk]
  exact updateFirstProp_map_name e.props "dtstart" attachUtcIfFloating

lemma normalizeDtstart_idem (e : Component) :
    normalizeDtstart (normalizeDtstart e) = normalizeDtstart e := by
  rw [normalizeDtstart_eq (normalizeDtstart e), normalizeDtstart_eq e]
  simp only [Component.name_mk, Component.props_mk, Component.comps_mk]
  rw [updateFirstProp_idem _ _ _ attachUtcIfFloating_idem]

/-! ### Per-event processing (index.js lines 95-120) -/

lemma processEvent_true (e : Component) :
    processEvent true e = normalizeDtstart (obfuscateEvent e) := rfl

lemma processEvent_false (e : Component) :
    processEvent false e = normalizeDtstart e := rfl

lemma processEvent_name (obf : Bool) (e : Component) :
    (processEvent obf e).name = if obf then "vevent" else e.name := by
  cases obf
  · rw [processEvent_false, normalizeDtstart_name]
    rfl
  · rw [processEvent_true, normalizeDtstart_name, obfuscateEvent_eq]
    rfl

lemma getFirstProperty_processEvent_ne (obf : Bool) (e : Component) (n : String)
    (hn : n ∈ essentialProps) (hd : n ≠ "dtstart") :
    getFirstProperty (processEvent obf e) n = getFirstProperty e n := by
  have hns : n ≠ "summary" := by
    rintro rfl
    revert hn
    decide
  cases obf
  · rw [processEvent_false]
    exact getFirstProperty_normalizeDtstart_ne e n hd
  · rw [processEvent_true, getFirstProperty_normalizeDtstart_ne _ _ hd,
      getFirstProperty_obfuscateEvent]
    simp [hns, hn]

lemma getFirstProperty_processEvent_dtstart (obf : Bool) (e : Component) :
    getFirstProperty (processEvent obf e) "dtstart"
      = (getFirstProperty e "dtstart").map
          (fun p => Property.mk p.name (attachUtcIfFloating p.value)) := by
  cases obf
  · rw [processEvent_false]
    exact getFirstProperty_normalizeDtstart_dtstart e
  · rw [processEvent_true, getFirstProperty_normalizeDtstart_dtstart,
      getFirstProperty_obfuscateEvent]
    simp [essentialProps]

/-! ### Structure of the combined document (index.js lines 83-128) -/

lemma innerFold_eq (obf : Bool) (events : List Component) (acc : Component) :
    (events.foldl (fun acc event => addSubcomponent acc (processEvent obf event)) acc)
      = Component.mk acc.name acc.props (acc.comps ++ events.map (processEvent obf)) := by
  induction events generalizing acc with
  | nil => simp [Component.eta]
  | cons ev rest ih =>
    simp only [List.foldl_cons, List.map_cons]
    rw [ih (addSubcomponent acc (processEvent obf ev))]
    simp [addSubcomponent]

lemma outerFold_eq (obf : Bool) (cals : List Component) (acc : Component) :
    (cals.foldl
        (fun combined calendar =>
          (getAllSubcomponents calendar "vevent").foldl
            (fun acc event => addSubcomponent acc (processEvent obf event)) combined)
        acc)
      = Component.mk acc.name acc.props
          (acc.comps
            ++ (cals.map (fun cal =>
                  (getAllSubcomponents cal "vevent").map (processEvent obf))).flatten) := by
  induction cals generalizing acc with
  | nil => simp [Component.eta]
  | cons cal rest ih =>
    simp only [List.foldl_cons, List.map_cons, List.flatten_cons]
    rw [innerFold_eq, ih]
    simp

/-- The combined document, explicitly: a bare vcalendar whose subcomponents
are the concatenation, in source order, of each source's direct vevent
children, each processed per event. -/
lemma combineCalendars_eq (cals : List Component) (obf : Bool) :
    combineCalendars cals obf
      = Component.mk "vcalendar" []
          ((cals.map (fun cal =>
              (getAllSubcomponents cal "vevent").map (processEvent obf))).flatten) := by
  unfold combineCalendars
  rw [outerFold_eq]
  simp

/-! ### Idempotence of the redaction step -/

lemma processEvent_true_eq (e : Component) :
    processEvent true e
      = Component.mk "vevent"
          (updateFirstProp
            (essentialProps.filterMap (getFirstProperty e)
              ++ [Property.mk "summary" (Value.text "BUSY")])
            "dtstart" attachUtcIfFloating)
          [] := by
  rw [processEvent_true, normalizeDtstart_eq, obfuscateEvent_eq]
  rfl

/-- Key fact for idempotence: re-running the essential-property selection over
a property list whose keys come from a name list, after the first key's value
was rewritten, reproduces the rewritten list. -/
lemma filterMap_updateFirst (g g' : String → Option Property) (rest : List String)
    (m : String) (f : Value → Value) (tail : List Property)
    (hkey : ∀ n p, g n = some p → p.name = n)
    (hm : g' m = (g m).map (fun p => Property.mk p.name (f p.value)))
    (hrest : ∀ n ∈ rest, g' n = g n)
    (hnm : m ∉ rest)
    (htail : ∀ p ∈ tail, ¬((p.name == m) = true)) :
    ((m :: rest).filterMap g') ++ tail
      = updateFirstProp (((m :: rest).filterMap g) ++ tail) m f := by
  rw [List.filterMap_cons, List.filterMap_cons, hm]
  have hrfm : rest.filterMap g' = rest.filterMap g := List.filterMap_congr hrest
  cases hgm : g m with
  | none =>
    simp only [Option.map_none']
    rw [hrfm]
    symm
    apply updateFirstProp_of_find?_none
    rw [List.find?_append]
    have h1 : (rest.filterMap g).find? (fun q => q.name == m) = none := by
      apply List.find?_eq_none.mpr
      intro x hx
      obtain ⟨n, hn, hgn⟩ := List.mem_filterMap.mp hx
      have hxn : x.name = n := hkey n x hgn
      simp only [hxn, beq_iff_eq]
      exact fun heq => hnm (heq ▸ hn)
    have h2 : tail.find? (fun q => q.name == m) = none := List.find?_eq_none.mpr htail
    rw [h1, h2]
    rfl
  | some p =>
    have hpn : p.name = m := hkey m p hgm
    simp only [Option.map_some']
    rw [hrfm]
    show _ = updateFirstProp (p :: (rest.filterMap g ++ tail)) m f
    unfold updateFirstProp
    rw [if_pos (show (p.name == m) = true by simp [hpn])]
    rfl

lemma obfuscateEvent_processEvent_true (e : Component) :
    obfuscateEvent (processEvent true e) = processEvent true e := by
  rw [obfuscateEvent_eq (processEvent true e)]
  conv_rhs => rw [processEvent_true_eq e]
  congr 1
  exact filterMap_updateFirst (getFirstProperty e)
    (getFirstProperty (processEvent true e))
    ["dtend", "duration", "rrule", "uid"] "dtstart" attachUtcIfFloating
    [Property.mk "summary" (Value.text "BUSY")]
    (fun n p h => getFirstProperty_name h)
    (getFirstProperty_processEvent_dtstart true e)
    (fun n hn => by
      have hn4 : n = "dtend" ∨ n = "duration" ∨ n = "rrule" ∨ n = "uid" := by
        simpa using hn
      apply getFirstProperty_processEvent_ne true e n
      · rcases hn4 with rfl | rfl | rfl | rfl <;> decide
      · rcases hn4 with rfl | rfl | rfl | rfl <;> decide)
    (by decide)
    (by
      intro p hp
      rw [List.mem_singleton] at hp
      subst hp
      decide)

lemma processEvent_true_idem (e : Component) :
    processEvent true (processEvent true e) = processEvent true e := by
  rw [processEvent_true (processEvent true e), obfuscateEvent_processEvent_true,
    processEvent_true e, normalizeDtstart_idem]

/-! ### Further support lemmas for the claims -/

lemma getFirstPropertyValue_eq (c : Component) (n : String) :
    getFirstPropertyValue c n = (getFirstProperty c n).map Property.value := rfl

lemma filterMap_names (e : Component) (L : List String) :
    (L.filterMap (getFirstProperty e)).map Property.name
      = L.filter (fun n => (getFirstProperty e n).isSome) := by
  induction L with
  | nil => rfl
  | cons k rest ih =>
    simp only [List.filterMap_cons, List.filter_cons]
    cases h : getFirstProperty e k with
    | none => simpa using ih
    | some p =>
      have hpk : p.name = k := getFirstProperty_name h
      simpa [hpk] using ih

lemma mem_combined_vevent (cals : List Component) (obf : Bool) (c : Component)
    (hc : c ∈ (cals.map (fun cal =>
        (getAllSubcomponents cal "vevent").map (processEvent obf))).flatten) :
    (c.name == "vevent") = true := by
  obtain ⟨l, hl, hcl⟩ := List.mem_flatten.mp hc
  obtain ⟨cal, hcal, rfl⟩ := List.mem_map.mp hl
  obtain ⟨ev, hev, rfl⟩ := List.mem_map.mp hcl
  have hev2 : ev ∈ cal.comps.filter (fun sub => sub.name == "vevent") := hev
  have hevname : (ev.name == "vevent") = true := (List.mem_filter.mp hev2).2
  rw [processEvent_name]
  cases obf
  · simpa using hevname
  · simp

lemma processEvent_dtstart_zoned (obf : Bool) (ev : Component) (t : ICalTime)
    (h : getFirstPropertyValue (processEvent obf ev) "dtstart"
      = some (Value.time t)) :
    t.zone.isSome = true := by
  rw [getFirstPropertyValue_eq, getFirstProperty_processEvent_dtstart] at h
  obtain ⟨q, hq, hqv⟩ := Option.map_eq_some'.mp h
  obtain ⟨p, hp, hpq⟩ := Option.map_eq_some'.mp hq
  subst hpq
  have hav : attachUtcIfFloating p.value = Value.time t := hqv
  cases hv : p.value with
  | text s =>
    rw [hv] at hav
    exact absurd hav (by simp [attachUtcIfFloating])
  | time u =>
    obtain ⟨d, z⟩ := u
    cases z with
    | none =>
      rw [hv] at hav
      injection hav with h1
      subst h1
      rfl
    | some z =>
      rw [hv] at hav
      injection hav with h1
      subst h1
      rfl

lemma normalizeDtstart_of_no_dtstart (e : Component)
    (h : getFirstProperty e "dtstart" = none) :
    normalizeDtstart e = e := by
  rw [normalizeDtstart_eq,
    updateFirstProp_of_find?_none _ _ _ (by rw [← getFirstProperty_eq]; exact h)]
  exact Component.eta e

lemma processEvent_of_no_dtstart (obf : Bool) (e : Component)
    (h : getFirstProperty e "dtstart" = none) :
    processEvent obf e = if obf then obfuscateEvent e else e := by
  cases obf
  · rw [processEvent_false, normalizeDtstart_of_no_dtstart e h]
    rfl
  · rw [processEvent_true]
    have hO : getFirstProperty (obfuscateEvent e) "dtstart" = none := by
      rw [getFirstProperty_obfuscateEvent]
      simpa [essentialProps] using h
    rw [normalizeDtstart_of_no_dtstart _ hO]
    rfl

lemma heapCopy_eq (src : List PropObj) (L : List String) (acc : List PropObj) :
    (L.foldl
        (fun acc propName =>
          match heapGetFirstProperty src propName with
          | some p => acc ++ [p]
          | none => acc) acc)
      = acc ++ L.filterMap (heapGetFirstProperty src) := by
  induction L generalizing acc with
  | nil => simp
  | cons k rest ih =>
    simp only [List.foldl_cons, List.filterMap_cons]
    cases h : heapGetFirstProperty src k with
    | none => simp only [h, ih]
    | some p =>
      simp only [h]
      rw [ih (acc ++ [p])]
      simp

lemma heapObfuscateProps_eq (src : List PropObj) (fresh : Nat) :
    heapObfuscateProps src fresh
      = essentialProps.filterMap (heapGetFirstProperty src)
        ++ [PropObj.mk "summary" fresh] := by
  unfold heapObfuscateProps
  rw [heapCopy_eq]
  rfl

/-! ## The claims -/

/-- C1: for every source event, the event built by the obfuscate = true branch
contains exactly, for each name in the fixed essential set (dtstart, dtend,
duration, rrule, uid) in that order, the first matching property of the source
event when present (absent names are skipped, not created), plus a summary
property with the literal value "BUSY"; the appended event carries no property
of any other name (no location, description, attendees, organizer, categories
or X- property). -/
theorem C1_redaction_exact (e : Component) :
    (obfuscateEvent e).props
      = essentialProps.filterMap (getFirstProperty e)
        ++ [Property.mk "summary" (Value.text "BUSY")]
  ∧ (processEvent true e).props.map Property.name
      = essentialProps.filter (fun n => (getFirstProperty e n).isSome) ++ ["summary"]
  ∧ ((processEvent true e).props.all
      (fun p => essentialProps.contains p.name || p.name == "summary")) = true := by
  have h1 : (obfuscateEvent e).props
      = essentialProps.filterMap (getFirstProperty e)
        ++ [Property.mk "summary" (Value.text "BUSY")] := by
    rw [obfuscateEvent_eq]
    rfl
  have h2 : (processEvent true e).props.map Property.name
      = essentialProps.filter (fun n => (getFirstProperty e n).isSome) ++ ["summary"] := by
    rw [processEvent_true, normalizeDtstart_props_names, h1, List.map_append,
      filterMap_names]
    rfl
  refine ⟨h1, h2, ?_⟩
  apply List.all_eq_true.mpr
  intro p hp
  have hname : p.name
      ∈ essentialProps.filter (fun n => (getFirstProperty e n).isSome) ++ ["summary"] := by
    rw [← h2]
    exact List.mem_map_of_mem Property.name hp
  rcases List.mem_append.mp hname with h | h
  · have hmem : p.name ∈ essentialProps := (List.mem_filter.mp h).1
    have hcont : essentialProps.contains p.name = true := List.elem_eq_true_of_mem hmem
    simp only [Bool.or_eq_true]
    exact Or.inl hcont
  · rw [List.mem_singleton] at h
    simp only [Bool.or_eq_true]
    exact Or.inr (by simp [h])

/-- C2: for every sequence of source calendars and both obfuscate settings,
the number of vevent components in the combined document equals the sum over
the sources of the number of vevent components extracted from each source; no
event is dropped and none is duplicated. -/
theorem C2_event_count (cals : List Component) (obf : Bool) :
    ((combineCalendars cals obf).comps.filter (fun s => s.name == "vevent")).length
      = (cals.map (fun cal => (getAllSubcomponents cal "vevent").length)).sum := by
  rw [combineCalendars_eq, Component.comps_mk]
  rw [List.filter_eq_self.mpr (fun c hc => mem_combined_vevent cals obf c hc)]
  rw [List.length_flatten]
  congr 1
  rw [List.map_map]
  apply List.map_congr_left
  intro cal hcal
  simp

/-- C3 counterexample: a source document containing one vevent nested under an
intermediate grouping component (so at depth two, not a direct child).  The
recursive containment count sees one vevent, yet Merge extracts nothing from
this document for either obfuscate setting, refuting the claim that extraction
searches recursively at any depth. -/
theorem C3_counterexample :
    countVEventsRec nestedEventDoc = 1
  ∧ (combineCalendars [nestedEventDoc] false).comps.length = 0
  ∧ (combineCalendars [nestedEventDoc] true).comps.length = 0 := by
  refine ⟨?_, rfl, rfl⟩
  simp [countVEventsRec, countVEventsRecList, nestedEventDoc]

/-- C3 (amended): Merge extracts, from each source document, exactly the
Components of type "vevent" that are direct children of the top-level
component, in order; vevents nested under intermediate grouping components
are not extracted. -/
theorem C3_direct_children_only (cal : Component) (obf : Bool) :
    (combineCalendars [cal] obf).comps
      = (cal.comps.filter (fun s => s.name == "vevent")).map (processEvent obf) := by
  rw [combineCalendars_eq, Component.comps_mk]
  simp [getAllSubcomponents]

/-- C4: in both branches, a dtstart value with no attached timezone gets the
UTC timezone attached in place, a dtstart value that already carries a zone is
left untouched, dtend and duration values are never re-zoned, and every
dtstart in the combined output carries an explicit timezone. -/
theorem C4_dtstart_timezone (e : Component) (obf : Bool) :
    (∀ t : ICalTime,
        getFirstPropertyValue e "dtstart" = some (Value.time t) →
        getFirstPropertyValue (processEvent obf e) "dtstart"
          = some (Value.time (ICalTime.mk t.date (some (t.zone.getD Zone.utc)))))
  ∧ getFirstPropertyValue (processEvent obf e) "dtend"
      = getFirstPropertyValue e "dtend"
  ∧ getFirstPropertyValue (processEvent obf e) "duration"
      = getFirstPropertyValue e "duration"
  ∧ ∀ (cals : List Component) (c : Component),
      c ∈ (combineCalendars cals obf).comps →
      ∀ t : ICalTime, getFirstPropertyValue c "dtstart" = some (Value.time t) →
        t.zone.isSome = true := by
  refine ⟨?_, ?_, ?_, ?_⟩
  · intro t ht
    rw [getFirstPropertyValue_eq] at ht
    obtain ⟨p, hp, hpv⟩ := Option.map_eq_some'.mp ht
    rw [getFirstPropertyValue_eq, getFirstProperty_processEvent_dtstart, hp,
      Option.map_some', Option.map_some']
    show some (attachUtcIfFloating p.value) = _
    rw [hpv]
    obtain ⟨d, z⟩ := t
    cases z <;> rfl
  · rw [getFirstPropertyValue_eq, getFirstPropertyValue_eq,
      getFirstProperty_processEvent_ne obf e "dtend" (by decide) (by decide)]
  · rw [getFirstPropertyValue_eq, getFirstPropertyValue_eq,
      getFirstProperty_processEvent_ne obf e "duration" (by decide) (by decide)]
  · intro cals c hc t ht
    rw [combineCalendars_eq, Component.comps_mk] at hc
    obtain ⟨l, hl, hcl⟩ := List.mem_flatten.mp hc
    obtain ⟨cal, hcal, rfl⟩ := List.mem_map.mp hl
    obtain ⟨ev, hev, rfl⟩ := List.mem_map.mp hcl
    exact processEvent_dtstart_zoned obf ev t ht

/-- C4 witness: a concrete event whose floating dtstart gets the UTC zone
attached by the per-event processing. -/
theorem C4_dtstart_timezone_witness :
    getFirstPropertyValue
        (processEvent true
          (Component.mk "vevent"
            [Property.mk "dtstart" (Value.time (ICalTime.mk "20240102T090000" none))] []))
        "dtstart"
      = some (Value.time (ICalTime.mk "20240102T090000" (some Zone.utc))) :=
  (C4_dtstart_timezone
      (Component.mk "vevent"
        [Property.mk "dtstart" (Value.time (ICalTime.mk "20240102T090000" none))] [])
      true).1
    (ICalTime.mk "20240102T090000" none) rfl

/-- C5 counterexample: the redacted event holds the very property object
(name dtstart, heap id 0) that the source event holds - a reference copy, not
a fresh node - and mutating that object through the source tree after the
merge changes the rendered combined document. -/
theorem C5_shared_reference_counterexample :
    heapGetFirstProperty srcEventProps "dtstart" = some (PropObj.mk "dtstart" 0)
  ∧ PropObj.mk "dtstart" 0 ∈ obfEventProps
  ∧ heapRender mutatedHeap obfEventProps ≠ heapRender mergedHeap obfEventProps := by
  refine ⟨rfl, by decide, by decide⟩

/-- C5 (amended): the appended event is a newly constructed Component and its
summary property is fresh, but every essential property it carries is the same
shared Property object as in the source event (a reference copy); only
mutations of objects not referenced by the redacted event leave the combined
document unchanged. -/
theorem C5_reference_copies (src : List PropObj) (fresh : Nat) :
    ((heapObfuscateProps src fresh).all
        (fun p => src.contains p || p == PropObj.mk "summary" fresh)) = true
  ∧ ∀ (h : Heap) (i : Nat) (v : Value),
      i ∉ (heapObfuscateProps src fresh).map PropObj.pid →
      heapRender (heapUpdate h i v) (heapObfuscateProps src fresh)
        = heapRender h (heapObfuscateProps src fresh) := by
  constructor
  · apply List.all_eq_true.mpr
    intro p hp
    rw [heapObfuscateProps_eq] at hp
    rcases List.mem_append.mp hp with h | h
    · obtain ⟨n, hn, hgn⟩ := List.mem_filterMap.mp h
      have hmem : p ∈ src := List.mem_of_find?_eq_some hgn
      have hcont : src.contains p = true := List.elem_eq_true_of_mem hmem
      simp only [Bool.or_eq_true]
      exact Or.inl hcont
    · rw [List.mem_singleton] at h
      simp only [Bool.or_eq_true]
      exact Or.inr (by simp [h])
  · intro h i v hni
    unfold heapRender
    apply List.map_congr_left
    intro p hp
    have hpid : p.pid ≠ i := fun he =>
      hni (he ▸ List.mem_map_of_mem PropObj.pid hp)
    unfold heapUpdate
    simp [hpid]

/-- C5 (amended) witness: at the concrete merged state, every property of the
redacted event is either a source reference or the fresh summary, and a
mutation of an unreferenced object (id 5) leaves the rendered event
unchanged. -/
theorem C5_reference_copies_witness :
    ((heapObfuscateProps srcEventProps 2).all
        (fun p => srcEventProps.contains p || p == PropObj.mk "summary" 2)) = true
  ∧ heapRender (heapUpdate mergedHeap 5 (Value.text "unrelated"))
        (heapObfuscateProps srcEventProps 2)
      = heapRender mergedHeap (heapObfuscateProps srcEventProps 2) :=
  ⟨(C5_reference_copies srcEventProps 2).1,
    (C5_reference_copies srcEventProps 2).2 mergedHeap 5 (Value.text "unrelated")
      (by decide)⟩

/-- C6: redaction is idempotent - applying the obfuscate = true per-event
transformation to an already-redacted event reproduces it exactly. -/
theorem C6_redaction_idempotent (e : Component) :
    processEvent true (processEvent true e) = processEvent true e :=
  processEvent_true_idem e

/-- C7: the engine raises no error on well-formed trees; in particular an
event with no dtstart at all is still appended - unchanged when obfuscate is
false, redacted when obfuscate is true - with no validation failure. -/
theorem C7_no_validation_failure (cals : List Component) (obf : Bool) (e : Component)
    (h1 : e.name = "vevent") (h2 : getFirstProperty e "dtstart" = none) :
    combineCalendars (cals ++ [Component.mk "vcalendar" [] [e]]) obf
      = addSubcomponent (combineCalendars cals obf)
          (if obf then obfuscateEvent e else e) := by
  rw [combineCalendars_eq, combineCalendars_eq]
  have hwrap : getAllSubcomponents (Component.mk "vcalendar" [] [e]) "vevent" = [e] := by
    simp [getAllSubcomponents, h1]
  rw [List.map_append, List.flatten_append]
  simp only [List.map_cons, List.map_nil, hwrap, List.flatten_cons, List.flatten_nil,
    List.append_nil]
  rw [processEvent_of_no_dtstart obf e h2]
  simp [addSubcomponent]

/-- C7 witness: a concrete dtstart-less event is appended redacted. -/
theorem C7_no_validation_failure_witness :
    combineCalendars
        [Component.mk "vcalendar" []
          [Component.mk "vevent" [Property.mk "summary" (Value.text "Dentist")] []]] true
      = addSubcomponent (combineCalendars [] true)
          (obfuscateEvent
            (Component.mk "vevent" [Property.mk "summary" (Value.text "Dentist")] [])) := by
  have h := C7_no_validation_failure [] true
    (Component.mk "vevent" [Property.mk "summary" (Value.text "Dentist")] []) rfl rfl
  simpa using h

/-- C8: the combined document's events appear in concatenation order: sources
in the order supplied, events of each source in their original relative
order, with no reordering across or within sources. -/
theorem C8_concatenation_order (cals : List Component) (obf : Bool) :
    (combineCalendars cals obf).comps
      = (cals.map (fun cal =>
          (getAllSubcomponents cal "vevent").map (processEvent obf))).flatten := by
  rw [combineCalendars_eq]
  rfl

/-- C9: merging an empty sequence of sources does not fail and returns a bare
vcalendar with zero subcomponents, while the minimum-of-two-sources policy
lives in the calling layer (main rejects fewer than two URLs). -/
theorem C9_empty_sources :
    (∀ obf : Bool, combineCalendars [] obf = Component.mk "vcalendar" [] [])
  ∧ requiresAtLeastTwoSources [] = true :=
  ⟨fun _ => rfl, rfl⟩

/-- C10: the combined document carries no top-level properties: it is a bare
vcalendar and Merge only ever appends vevent subcomponents to it. -/
theorem C10_no_toplevel_properties (cals : List Component) (obf : Bool) :
    (combineCalendars cals obf).name = "vcalendar"
  ∧ (combineCalendars cals obf).props = []
  ∧ ((combineCalendars cals obf).comps.all (fun s => s.name == "vevent")) = true := by
  refine ⟨?_, ?_, ?_⟩
  · rw [combineCalendars_eq]
    rfl
  · rw [combineCalendars_eq]
    rfl
  · rw [combineCalendars_eq, Component.comps_mk]
    exact List.all_eq_true.mpr (fun c hc => mem_combined_vevent cals obf c hc)

end CalendarCombiner
